import Mathlib

/-!
Verification of the package-index parsing, dependency extraction, package
location and tree rendering logic of the Alpine dependency visualizer
(`visualizer.py`).  Strings are modelled as lists of characters; Python
dictionaries (which preserve insertion order and overwrite values in place)
are modelled as association lists with an order-preserving insert.
-/

namespace Visualizer

/-- Decidable equality of `Except` values, for evaluating concrete runs. -/
instance {ε σ : Type} [DecidableEq ε] [DecidableEq σ] : DecidableEq (Except ε σ) :=
  fun x y =>
    match x, y with
    | .error e, .error f =>
      if h : e = f then .isTrue (congrArg Except.error h)
      else .isFalse (fun hh => h (Except.error.inj hh))
    | .ok a, .ok b =>
      if h : a = b then .isTrue (congrArg Except.ok h)
      else .isFalse (fun hh => h (Except.ok.inj hh))
    | .error _, .ok _ => .isFalse (fun hh => Except.noConfusion hh)
    | .ok _, .error _ => .isFalse (fun hh => Except.noConfusion hh)

/-- Strings are modelled as lists of characters. -/
abbrev Str := List Char

/-- Characters treated as whitespace by Python's `str.strip()` / `str.split()`
(ASCII and Latin-1 range; exotic Unicode spaces are not used by the code
or its inputs). -/
def pyIsSpace (c : Char) : Bool :=
  c == ' ' || c == '\t' || c == '\n' || c == '\r' || c == '\x0b' || c == '\x0c' ||
  c == '\x1c' || c == '\x1d' || c == '\x1e' || c == '\x85' || c == '\xa0'

/-- Line terminators recognised by Python's `str.splitlines()`. -/
def isLineBreak (c : Char) : Bool :=
  c == '\n' || c == '\r' || c == '\x0b' || c == '\x0c' ||
  c == '\x1c' || c == '\x1d' || c == '\x1e' || c == '\x85' ||
  c == '\u2028' || c == '\u2029'

/-- Worker for `splitlines`: `acc` holds the current line reversed. -/
def splitlinesAux : Str → Str → List Str
  | [], acc => if acc = [] then [] else [acc.reverse]
  | '\r' :: '\n' :: rest, acc => acc.reverse :: splitlinesAux rest []
  | c :: rest, acc =>
    if isLineBreak c then acc.reverse :: splitlinesAux rest []
    else splitlinesAux rest (c :: acc)

/-- Python `str.splitlines()`: split at line terminators (treating `\r\n` as a
single terminator), keeping interior empty lines but no trailing empty line. -/
def splitlines (s : Str) : List Str := splitlinesAux s []

/-- Python `str.strip()`: remove leading and trailing whitespace. -/
def pyStrip (s : Str) : Str :=
  ((s.dropWhile pyIsSpace).reverse.dropWhile pyIsSpace).reverse

/-- Worker for `pySplit`: `acc` holds the current token reversed. -/
def pySplitAux : Str → Str → List Str
  | [], acc => if acc = [] then [] else [acc.reverse]
  | c :: rest, acc =>
    if pyIsSpace c then
      if acc = [] then pySplitAux rest [] else acc.reverse :: pySplitAux rest []
    else pySplitAux rest (c :: acc)

/-- Python `str.split()` with no argument: split on runs of whitespace,
producing no empty tokens. -/
def pySplit (s : Str) : List Str := pySplitAux s []

/-! ### Python dictionaries as insertion-ordered association lists -/

variable {α β : Type} [DecidableEq α]

/-- Lookup in an association list: value of the first entry with the key. -/
def dictGet (k : α) : List (α × β) → Option β
  | [] => none
  | (k2, v) :: rest => if k2 = k then some v else dictGet k rest

/-- Python `k in d`. -/
def dictHas (k : α) (d : List (α × β)) : Bool := (dictGet k d).isSome

/-- Python `d[k] = v`: overwrite in place if the key exists (keeping its
position, as Python dicts do), otherwise append at the end. -/
def dictInsert (k : α) (v : β) (d : List (α × β)) : List (α × β) :=
  if dictHas k d then d.map (fun p => if p.1 = k then (k, v) else p)
  else d ++ [(k, v)]

/-! ### The index parser (`AlpinePackageParser.parse_package_index`) -/

/-- A parsed package record: field code to trimmed value, insertion ordered. -/
abbrev PkgRecord := List (Str × Str)

/-- The parsed index: composite key `"P-V"` to record, insertion ordered. -/
abbrev PkgIndex := List (Str × PkgRecord)

/-- The field code `P`. -/
def fP : Str := ['P']

/-- The field code `V`. -/
def fV : Str := ['V']

/-- The field code `D`. -/
def fD : Str := ['D']

/-- The commit step of the parser: if the current record is nonempty and has
both `P` and `V` fields, store it under the key `"P-V"`; otherwise drop it. -/
def commitRecord (pkgs : PkgIndex) (cur : PkgRecord) : PkgIndex :=
  if cur ≠ [] ∧ (dictGet fP cur).isSome ∧ (dictGet fV cur).isSome then
    dictInsert ((dictGet fP cur).getD [] ++ '-' :: (dictGet fV cur).getD []) cur pkgs
  else pkgs

/-- One iteration of the parser loop over a raw line: strip it; a blank line
commits the current record and resets it; a line with a colon is split at the
first colon into field code and trimmed value; any other line is ignored. -/
def processLine (st : PkgIndex × PkgRecord) (line : Str) : PkgIndex × PkgRecord :=
  let l := pyStrip line
  if l = [] then (commitRecord st.1 st.2, [])
  else if l.any (· = ':') then
    (st.1, dictInsert (l.takeWhile (fun c => decide (c ≠ ':')))
      (pyStrip ((l.dropWhile (fun c => decide (c ≠ ':'))).tail)) st.2)
  else st

/-- `AlpinePackageParser.parse_package_index`: fold the line loop over the
lines of the input, then commit the final record. -/
def parse_package_index (content : Str) : PkgIndex :=
  let st := (splitlines content).foldl processLine ([], [])
  commitRecord st.1 st.2

/-! ### The dependency extractor (`AlpinePackageParser.extract_dependencies`) -/

/-- `re.sub(r'[<=>].*$', '', dep)` on a whitespace-free token: keep the prefix
before the first `<`, `=` or `>`. -/
def stripConstraint (dep : Str) : Str :=
  dep.takeWhile (fun c => decide (c ≠ '<' ∧ c ≠ '=' ∧ c ≠ '>'))

/-- `AlpinePackageParser.extract_dependencies`: if the `D` field is present and
nonempty, split it on whitespace, strip version constraints from each token and
keep the nonempty results in order. -/
def extract_dependencies (package_data : PkgRecord) : List Str :=
  match dictGet fD package_data with
  | some d =>
    if d = [] then []
    else (pySplit d).foldl
      (fun deps dep =>
        let clean := stripConstraint dep
        if clean = [] then deps else deps ++ [clean]) []
  | none => []

/-! ### The package locator (`DependencyFetcher.get_direct_dependencies`) -/

/-- Python truthiness of the locator's `target_package` variable: `None` and
the empty dict are falsy, a nonempty dict is truthy. -/
def optTruthy : Option PkgRecord → Bool
  | none => false
  | some r => !r.isEmpty

/-- The two scan loops of `get_direct_dependencies`: first the record whose
`P` field equals the name (`pkg_data.get('P') == package_name`), then — if the
target is still falsy — the first record whose composite key contains the name
as a substring (`package_name in pkg_key`). -/
def find_target_package (packages : PkgIndex) (name : Str) : Option PkgRecord :=
  let t1 := (packages.find? (fun p => decide (dictGet fP p.2 = some name))).map Prod.snd
  if optTruthy t1 then t1
  else
    match (packages.find? (fun p => decide (name <:+: p.1))).map Prod.snd with
    | some r => some r
    | none => t1

/-- The Russian message of the `DependencyError` raised when no package
matches: `"Пакет '<name>' не найден в репозитории"`. -/
def notFoundMsg (name : Str) : Str :=
  "Пакет '".toList ++ name ++ "' не найден в репозитории".toList

/-- `DependencyFetcher.get_direct_dependencies`, with the fetched index text
passed as an argument (fetching itself is I/O, out of scope): parse the index,
locate the target by exact then partial match, raise `DependencyError` if the
target is still falsy, else extract its dependencies. -/
def get_direct_dependencies (content name : Str) : Except Str (List Str) :=
  let packages := parse_package_index content
  let target := find_target_package packages name
  if optTruthy target then Except.ok (extract_dependencies (target.getD []))
  else Except.error (notFoundMsg name)

/-! ### The tree renderer (`DependencyVisualizer.generate_ascii_tree`) -/

/-- A dependency graph: package name to list of dependency names. -/
abbrev DepGraph := List (Str × List Str)

/-- The line emitted for a root that is not a key of the graph:
`f"{package} (не найден)\n"`. -/
def notFoundLine (package : Str) : Str := package ++ " (не найден)\n".toList

/-- The `for i, dep in enumerate(deps)` loop of `generate_ascii_tree`,
abstracted over the rendering of a child (`child dep childPrefix`): the last
dependency gets connector `"└── "` and child prefix `pfx ++ "    "`, the
others `"├── "` and `pfx ++ "│   "`. -/
def renderDeps (child : Str → Str → Option Str) (pfx : Str) : List Str → Option Str
  | [] => some []
  | [dep] =>
    match child dep (pfx ++ "    ".toList) with
    | some sub => some (pfx ++ "└── ".toList ++ sub)
    | none => none
  | dep :: deps =>
    match child dep (pfx ++ "│   ".toList) with
    | some sub =>
      match renderDeps child pfx deps with
      | some rest => some (pfx ++ "├── ".toList ++ sub ++ rest)
      | none => none
    | none => none

/-- `DependencyVisualizer.generate_ascii_tree`.  The Python recursion has no
cycle guard and diverges on cyclic graphs, so the embedding takes fuel and
returns `none` exactly when the fuel runs out. -/
def generate_ascii_tree : Nat → DepGraph → Str → Str → Option Str
  | 0, _, _, _ => none
  | fuel + 1, graph, package, pfx =>
    match dictGet package graph with
    | none => some (notFoundLine package)
    | some deps =>
      match renderDeps (fun dep q => generate_ascii_tree fuel graph dep q) pfx deps with
      | some body => some (package ++ '\n' :: body)
      | none => none

/-! ### Helper lemmas -/

theorem dictGet_isSome_ne_nil {k : α} {d : List (α × β)} (h : (dictGet k d).isSome) :
    d ≠ [] := by
  intro hnil
  subst hnil
  simp [dictGet] at h

theorem cleanFoldAux (toks : List Str) (acc : List Str) :
    toks.foldl
      (fun deps dep =>
        let clean := stripConstraint dep
        if clean = [] then deps else deps ++ [clean]) acc
    = acc ++ (toks.map stripConstraint).filter (fun t => !t.isEmpty) := by
  induction toks generalizing acc with
  | nil => simp
  | cons t ts ih =>
    simp only [List.foldl_cons, List.map_cons, List.filter_cons]
    by_cases h : stripConstraint t = []
    · simp [h, ih]
    · have hne : (!(stripConstraint t).isEmpty) = true := by
        simpa [List.isEmpty_iff] using h
      simp only [h, if_neg h, hne, if_true, cond_true, ih]
      simp

theorem extract_dependencies_eq {pd : PkgRecord} {d : Str} (h : dictGet fD pd = some d) :
    extract_dependencies pd
      = ((pySplit d).map stripConstraint).filter (fun t => !t.isEmpty) := by
  unfold extract_dependencies
  rw [h]
  by_cases hd : d = []
  · subst hd
    simp [pySplit, pySplitAux]
  · simp only [hd, if_neg hd, cleanFoldAux]
    simp

theorem dictGet_cons (k a : α) (b : β) (rest : List (α × β)) :
    dictGet k ((a, b) :: rest) = if a = k then some b else dictGet k rest := rfl

theorem dictGet_append_of_none {k : α} {d e : List (α × β)} (h : dictGet k d = none) :
    dictGet k (d ++ e) = dictGet k e := by
  induction d with
  | nil => simp
  | cons p rest ih =>
    obtain ⟨a, b⟩ := p
    by_cases hp : a = k
    · simp [dictGet_cons, hp] at h
    · rw [List.cons_append, dictGet_cons, if_neg hp]
      rw [dictGet_cons, if_neg hp] at h
      exact ih h

theorem dictGet_dictInsert_self (k : α) (v : β) (d : List (α × β)) :
    dictGet k (dictInsert k v d) = some v := by
  unfold dictInsert
  by_cases h : dictHas k d
  · simp only [h, if_true]
    induction d with
    | nil => simp [dictHas, dictGet] at h
    | cons p rest ih =>
      obtain ⟨a, b⟩ := p
      simp only [List.map_cons]
      by_cases hp : a = k
      · subst hp
        simp [dictGet_cons]
      · have hmap : (if (a, b).1 = k then (k, v) else (a, b)) = (a, b) := if_neg hp
        rw [hmap, dictGet_cons, if_neg hp]
        exact ih (by simpa [dictHas, dictGet_cons, hp] using h)
  · simp only [h, if_false, Bool.false_eq_true]
    have hn : dictGet k d = none := by
      cases hd : dictGet k d with
      | none => rfl
      | some w => rw [dictHas, hd] at h; simp at h
    rw [dictGet_append_of_none hn]
    simp [dictGet_cons]

theorem dictGet_map_overwrite {k k2 : α} (hne : k2 ≠ k) (v : β) (d : List (α × β)) :
    dictGet k2 (d.map (fun p => if p.1 = k then (k, v) else p)) = dictGet k2 d := by
  induction d with
  | nil => rfl
  | cons p rest ih =>
    obtain ⟨a, b⟩ := p
    simp only [List.map_cons]
    by_cases hp : a = k
    · subst hp
      have hmap : (if (a, b).1 = a then (a, v) else (a, b)) = (a, v) := if_pos rfl
      rw [hmap, dictGet_cons, dictGet_cons, if_neg (fun hh => hne hh.symm),
        if_neg (fun hh => hne hh.symm)]
      exact ih
    · have hmap : (if (a, b).1 = k then (k, v) else (a, b)) = (a, b) := if_neg hp
      rw [hmap, dictGet_cons, dictGet_cons]
      by_cases ha : a = k2
      · simp [ha]
      · rw [if_neg ha, if_neg ha]
        exact ih

theorem dictGet_dictInsert_other {k k2 : α} (hne : k2 ≠ k) (v : β) (d : List (α × β)) :
    dictGet k2 (dictInsert k v d) = dictGet k2 d := by
  unfold dictInsert
  by_cases h : dictHas k d
  · simp only [h, if_true]
    exact dictGet_map_overwrite hne v d
  · simp only [h, if_false, Bool.false_eq_true]
    clear h
    induction d with
    | nil => simp [dictGet_cons, Ne.symm hne]
    | cons p rest ih =>
      obtain ⟨a, b⟩ := p
      rw [List.cons_append, dictGet_cons, dictGet_cons]
      by_cases ha : a = k2
      · simp [ha]
      · rw [if_neg ha, if_neg ha]
        exact ih

theorem length_dictInsert_of_has (k : α) (v : β) (d : List (α × β))
    (h : dictHas k d = true) : (dictInsert k v d).length = d.length := by
  simp [dictInsert, h]

theorem colon_split (l : Str) (h : l.any (fun c => decide (c = ':')) = true) :
    l = l.takeWhile (fun c => decide (c ≠ ':'))
          ++ ':' :: (l.dropWhile (fun c => decide (c ≠ ':'))).tail ∧
    ∀ c ∈ l.takeWhile (fun c => decide (c ≠ ':')), c ≠ ':' := by
  induction l with
  | nil => simp at h
  | cons a l ih =>
    by_cases ha : a = ':'
    · subst ha
      simp [List.takeWhile_cons, List.dropWhile_cons]
    · have hpa : (fun c => decide (c ≠ ':')) a = true := by simpa using ha
      have h2 : l.any (fun c => decide (c = ':')) = true := by
        simpa [ha] using h
      obtain ⟨ih1, ih2⟩ := ih h2
      constructor
      · rw [@List.takeWhile_cons_of_pos Char (fun c => decide (c ≠ ':')) a l hpa,
          @List.dropWhile_cons_of_pos Char (fun c => decide (c ≠ ':')) a l hpa,
          List.cons_append]
        exact congrArg (List.cons a) ih1
      · intro c hc
        rw [@List.takeWhile_cons_of_pos Char (fun c => decide (c ≠ ':')) a l hpa] at hc
        rcases List.mem_cons.mp hc with hc1 | hc2
        · exact hc1 ▸ ha
        · exact ih2 c hc2

/-! ### Claim C1 -/

/-- C1 counterexample: for the graph `{}` and root `"Z"`, the renderer does
not produce the line `"Z (not found)\n"` (its message is in Russian). -/
theorem tree_not_found_counterexample :
    generate_ascii_tree 1 [] "Z".toList [] ≠ some ("Z (not found)\n".toList) := by
  decide

/-- C1 (amended): for every dependency graph and every root name that is not a
key of the graph, `generate_ascii_tree` (with any positive fuel and any
prefix) returns exactly the single line `"{root} (не найден)\n"`; in
particular the graph `{}` with root `"Z"` produces exactly
`"Z (не найден)\n"`. -/
theorem tree_not_found_line :
    (∀ (fuel : Nat) (graph : DepGraph) (root pfx : Str),
      dictGet root graph = none →
      generate_ascii_tree (fuel + 1) graph root pfx
        = some (root ++ " (не найден)\n".toList)) ∧
    generate_ascii_tree 1 [] "Z".toList [] = some ("Z (не найден)\n".toList) := by
  constructor
  · intro fuel graph root pfx h
    simp [generate_ascii_tree, h, notFoundLine]
  · decide

/-- C1 witness: the amended theorem applied to the empty graph and root
`"Z"`. -/
theorem tree_not_found_line_witness :
    generate_ascii_tree 1 ([] : DepGraph) "Z".toList []
      = some ("Z".toList ++ " (не найден)\n".toList) :=
  tree_not_found_line.1 0 [] "Z".toList [] rfl

/-! ### Claim C3 -/

/-- C3: no element of the list returned by `extract_dependencies` contains
any of the characters `<`, `=`, `>`, and tokens whose prefix became empty
were discarded (no returned token is empty). -/
theorem extract_dependencies_clean (pd : PkgRecord) (tok : Str)
    (htok : tok ∈ extract_dependencies pd) :
    tok ≠ [] ∧ ∀ c ∈ tok, c ≠ '<' ∧ c ≠ '=' ∧ c ≠ '>' := by
  cases hD : dictGet fD pd with
  | none =>
    unfold extract_dependencies at htok
    rw [hD] at htok
    simp at htok
  | some d =>
    rw [extract_dependencies_eq hD] at htok
    rw [List.mem_filter] at htok
    obtain ⟨hmem, hne⟩ := htok
    rw [List.mem_map] at hmem
    obtain ⟨dep, _, hdep⟩ := hmem
    constructor
    · intro hei
      rw [hei] at hne
      simp at hne
    · intro c hc
      rw [← hdep] at hc
      have hp := List.mem_takeWhile_imp hc
      simpa using hp

/-- C3 witness: the theorem applied to a record whose `D` field carries a
version constraint. -/
theorem extract_dependencies_clean_witness :
    "lib".toList ≠ [] ∧
      ∀ c ∈ "lib".toList, c ≠ '<' ∧ c ≠ '=' ∧ c ≠ '>' :=
  extract_dependencies_clean [(fD, "lib>=1.0".toList)] "lib".toList (by decide)

/-! ### Claim C4 -/

/-- C4: `extract_dependencies` returns `[]` when the `D` field is absent or
empty; otherwise it splits the `D` value on runs of whitespace, strips the
version-constraint suffixes and keeps the nonempty results in original order
without deduplication; the two quoted examples evaluate as stated. -/
theorem extract_dependencies_algorithm :
    (∀ pd : PkgRecord, dictGet fD pd = none → extract_dependencies pd = []) ∧
    (∀ pd : PkgRecord, dictGet fD pd = some [] → extract_dependencies pd = []) ∧
    (∀ (pd : PkgRecord) (d : Str), dictGet fD pd = some d →
      extract_dependencies pd
        = ((pySplit d).map stripConstraint).filter (fun t => !t.isEmpty)) ∧
    extract_dependencies [(fD, "lib1 lib2>=1.0 lib3<2.0 lib4=3.0 lib5".toList)]
      = ["lib1".toList, "lib2".toList, "lib3".toList, "lib4".toList, "lib5".toList] ∧
    extract_dependencies [(fD, "  lib1  lib2>=1.0  lib3  ".toList)]
      = ["lib1".toList, "lib2".toList, "lib3".toList] := by
  refine ⟨?_, ?_, ?_, by decide, by decide⟩
  · intro pd h
    unfold extract_dependencies
    rw [h]
  · intro pd h
    unfold extract_dependencies
    rw [h]
    simp
  · intro pd d h
    exact extract_dependencies_eq h

/-- C4 witness: the absent-field case of the theorem at the empty record. -/
theorem extract_dependencies_algorithm_witness :
    extract_dependencies ([] : PkgRecord) = [] :=
  extract_dependencies_algorithm.1 [] rfl

/-! ### Claim C5 -/

/-- C5: after the fold over all lines, if the pending record has both `P` and
`V` fields, `parse_package_index` still commits it (input without a trailing
blank line); in particular `"P:test\nV:1.0\nD:\ni:test"` yields exactly one
record. -/
theorem parser_commits_final_record :
    (∀ (content : Str) (st : PkgIndex × PkgRecord),
      st = (splitlines content).foldl processLine ([], []) →
      (dictGet fP st.2).isSome → (dictGet fV st.2).isSome →
      parse_package_index content
        = dictInsert
            ((dictGet fP st.2).getD [] ++ '-' :: (dictGet fV st.2).getD [])
            st.2 st.1) ∧
    (parse_package_index "P:test\nV:1.0\nD:\ni:test".toList).length = 1 := by
  constructor
  · intro content st hst h1 h2
    have hne : st.2 ≠ [] := dictGet_isSome_ne_nil h1
    unfold parse_package_index
    rw [← hst]
    unfold commitRecord
    rw [if_pos ⟨hne, h1, h2⟩]
  · decide

/-- C5 witness: the final-commit case applied to a two-line input with no
trailing blank line. -/
theorem parser_commits_final_record_witness :
    parse_package_index "P:a\nV:1".toList
      = dictInsert
          ((dictGet fP ((splitlines "P:a\nV:1".toList).foldl processLine ([], [])).2).getD []
            ++ '-' ::
              (dictGet fV ((splitlines "P:a\nV:1".toList).foldl processLine ([], [])).2).getD [])
          ((splitlines "P:a\nV:1".toList).foldl processLine ([], [])).2
          ((splitlines "P:a\nV:1".toList).foldl processLine ([], [])).1 :=
  parser_commits_final_record.1 "P:a\nV:1".toList
    ((splitlines "P:a\nV:1".toList).foldl processLine ([], [])) rfl
    (by decide) (by decide)

/-! ### Claim C6 -/

/-- C6: for every stripped line containing at least one colon, the parser
splits on the first colon only: the part before the first colon (which itself
contains no colon) becomes the field code and the whole remainder, trimmed of
surrounding whitespace, becomes the value; a value with an embedded colon
(a URL) is stored intact. -/
theorem parser_splits_first_colon :
    (∀ (pkgs : PkgIndex) (cur : PkgRecord) (line : Str),
      (pyStrip line).any (fun c => decide (c = ':')) = true →
      ∃ code raw,
        pyStrip line = code ++ ':' :: raw ∧
        (∀ c ∈ code, c ≠ ':') ∧
        processLine (pkgs, cur) line = (pkgs, dictInsert code (pyStrip raw) cur)) ∧
    parse_package_index "P:a\nV:1\nU:http://h:80/p\n\n".toList
      = [("a-1".toList,
          [("P".toList, "a".toList), ("V".toList, "1".toList),
            ("U".toList, "http://h:80/p".toList)])] := by
  constructor
  · intro pkgs cur line h
    have hsp := colon_split (pyStrip line) h
    refine ⟨(pyStrip line).takeWhile (fun c => decide (c ≠ ':')),
      ((pyStrip line).dropWhile (fun c => decide (c ≠ ':'))).tail,
      hsp.1, hsp.2, ?_⟩
    have hne : pyStrip line ≠ [] := by
      intro hh
      rw [hh] at h
      simp at h
    simp only [processLine, if_neg hne, h, if_true]
  · decide

/-- C6 witness: the first-colon split applied to the line `"U:http://h:80/p"`
with an empty parser state. -/
theorem parser_splits_first_colon_witness :
    ∃ code raw,
      pyStrip "U:http://h:80/p".toList = code ++ ':' :: raw ∧
      (∀ c ∈ code, c ≠ ':') ∧
      processLine ([], []) "U:http://h:80/p".toList
        = ([], dictInsert code (pyStrip raw) []) :=
  parser_splits_first_colon.1 [] [] "U:http://h:80/p".toList (by decide)

/-! ### Claim C7 -/

/-- C7: the parser never fails on any input: a nonblank line without a colon
leaves the state unchanged (silently ignored), a blank line with a pending
record missing `P` or `V` silently drops the record, and both the empty
string and whitespace-only input (and an input whose only record is
incomplete) yield an empty index. -/
theorem parser_total_tolerant :
    (∀ (pkgs : PkgIndex) (cur : PkgRecord) (line : Str),
      pyStrip line ≠ [] →
      (pyStrip line).any (fun c => decide (c = ':')) = false →
      processLine (pkgs, cur) line = (pkgs, cur)) ∧
    (∀ (pkgs : PkgIndex) (cur : PkgRecord) (line : Str),
      pyStrip line = [] →
      ¬((dictGet fP cur).isSome ∧ (dictGet fV cur).isSome) →
      processLine (pkgs, cur) line = (pkgs, [])) ∧
    parse_package_index "".toList = [] ∧
    parse_package_index "   \n  \n  ".toList = [] ∧
    parse_package_index "P:incomplete\nmalformed line\n".toList = [] := by
  refine ⟨?_, ?_, by decide, by decide, by decide⟩
  · intro pkgs cur line h1 h2
    simp only [processLine, if_neg h1, h2, Bool.false_eq_true, if_false]
  · intro pkgs cur line h1 h2
    have hcommit : commitRecord pkgs cur = pkgs := by
      unfold commitRecord
      rw [if_neg (fun hc => h2 ⟨hc.2.1, hc.2.2⟩)]
    simp [processLine, h1, hcommit]

/-- C7 witness: a nonblank colon-free line is ignored, applied to the line
`"malformed"` with an empty state. -/
theorem parser_total_tolerant_witness :
    processLine ([], []) "malformed".toList = ([], []) :=
  parser_total_tolerant.1 [] [] "malformed".toList (by decide) (by decide)

/-! ### Claim C8 -/

/-- C8: inserting under an existing key overwrites the earlier value in place
(last write wins, no length change, other keys untouched, no failure), and a
concrete input with two records sharing name and version parses to a single
entry holding the later record. -/
theorem parser_duplicate_key_overwrites :
    (∀ (k : Str) (v : PkgRecord) (d : PkgIndex), dictHas k d = true →
      (dictInsert k v d).length = d.length ∧
      dictGet k (dictInsert k v d) = some v ∧
      ∀ k2, k2 ≠ k → dictGet k2 (dictInsert k v d) = dictGet k2 d) ∧
    parse_package_index "P:a\nV:1\nT:first\n\nP:a\nV:1\nT:second\n".toList
      = [("a-1".toList,
          [("P".toList, "a".toList), ("V".toList, "1".toList),
            ("T".toList, "second".toList)])] := by
  constructor
  · intro k v d h
    exact ⟨length_dictInsert_of_has k v d h, dictGet_dictInsert_self k v d,
      fun k2 hk2 => dictGet_dictInsert_other hk2 v d⟩
  · decide

/-- C8 witness: the overwrite facts applied to a one-entry index whose key is
inserted again with a new record. -/
theorem parser_duplicate_key_overwrites_witness :
    (dictInsert "a-1".toList [(fP, "a".toList)]
        [("a-1".toList, [(fV, "1".toList)])]).length
      = [("a-1".toList, [(fV, "1".toList)])].length ∧
    dictGet "a-1".toList
        (dictInsert "a-1".toList [(fP, "a".toList)]
          [("a-1".toList, [(fV, "1".toList)])])
      = some [(fP, "a".toList)] ∧
    ∀ k2, k2 ≠ "a-1".toList →
      dictGet k2
          (dictInsert "a-1".toList [(fP, "a".toList)]
            [("a-1".toList, [(fV, "1".toList)])])
        = dictGet k2 [("a-1".toList, [(fV, "1".toList)])] :=
  parser_duplicate_key_overwrites.1 "a-1".toList [(fP, "a".toList)]
    [("a-1".toList, [(fV, "1".toList)])] (by decide)

/-! ### Claim C9 -/

/-- C9: for a root present in the graph, `generate_ascii_tree` emits the root
name plus newline followed by the rendering of its dependency list, where the
child loop gives each non-last dependency connector `"├── "` and extended
prefix `pfx ++ "│   "` and the last dependency connector `"└── "` and
extended prefix `pfx ++ "    "`; in particular the graph
`{A:[B,C], B:[], C:[]}` with root `A` renders as the three lines
`A`, `├── B`, `└── C`. -/
theorem tree_render_found :
    (∀ (fuel : Nat) (graph : DepGraph) (root pfx : Str) (deps : List Str),
      dictGet root graph = some deps →
      generate_ascii_tree (fuel + 1) graph root pfx
        = Option.map (fun body => root ++ '\n' :: body)
            (renderDeps (fun dep q => generate_ascii_tree fuel graph dep q) pfx deps)) ∧
    (∀ (child : Str → Str → Option Str) (pfx dep : Str),
      renderDeps child pfx [dep]
        = Option.map (fun sub => pfx ++ "└── ".toList ++ sub)
            (child dep (pfx ++ "    ".toList))) ∧
    (∀ (child : Str → Str → Option Str) (pfx dep dep2 : Str) (deps : List Str),
      renderDeps child pfx (dep :: dep2 :: deps)
        = match child dep (pfx ++ "│   ".toList),
                renderDeps child pfx (dep2 :: deps) with
          | some sub, some rest => some (pfx ++ "├── ".toList ++ sub ++ rest)
          | _, _ => none) ∧
    generate_ascii_tree 3
        [("A".toList, ["B".toList, "C".toList]), ("B".toList, []), ("C".toList, [])]
        "A".toList []
      = some ("A\n├── B\n└── C\n".toList) := by
  refine ⟨?_, ?_, ?_, by decide⟩
  · intro fuel graph root pfx deps h
    simp only [generate_ascii_tree, h]
    cases renderDeps (fun dep q => generate_ascii_tree fuel graph dep q) pfx deps <;> rfl
  · intro child pfx dep
    simp only [renderDeps]
    cases child dep (pfx ++ "    ".toList) <;> rfl
  · intro child pfx dep dep2 deps
    cases h1 : child dep (pfx ++ "│   ".toList) <;>
      cases h2 : renderDeps child pfx (dep2 :: deps) <;>
        simp only [renderDeps, h1, h2]

/-- C9 witness: the found-root unfolding applied to the sample graph. -/
theorem tree_render_found_witness :
    generate_ascii_tree 3
        [("A".toList, ["B".toList, "C".toList]), ("B".toList, []), ("C".toList, [])]
        "A".toList []
      = Option.map (fun body => "A".toList ++ '\n' :: body)
          (renderDeps
            (fun dep q =>
              generate_ascii_tree 2
                [("A".toList, ["B".toList, "C".toList]), ("B".toList, []), ("C".toList, [])]
                dep q)
            [] ["B".toList, "C".toList]) :=
  tree_render_found.1 2
    [("A".toList, ["B".toList, "C".toList]), ("B".toList, []), ("C".toList, [])]
    "A".toList [] ["B".toList, "C".toList] (by decide)

/-! ### Invariant: every parsed record has `P` and `V` fields -/

theorem mem_dictInsert {x : α × β} {k : α} {v : β} {d : List (α × β)}
    (h : x ∈ dictInsert k v d) : x = (k, v) ∨ x ∈ d := by
  unfold dictInsert at h
  by_cases hh : dictHas k d
  · simp only [hh, if_true] at h
    rw [List.mem_map] at h
    obtain ⟨y, hy, hxy⟩ := h
    by_cases hyk : y.1 = k
    · left
      rw [← hxy, if_pos hyk]
    · right
      rw [← hxy, if_neg hyk]
      exact hy
  · simp only [hh, if_false, Bool.false_eq_true] at h
    rcases List.mem_append.mp h with h1 | h2
    · right; exact h1
    · left; simpa using h2

theorem commitRecord_mem {x : Str × PkgRecord} {pkgs : PkgIndex} {cur : PkgRecord}
    (h : x ∈ commitRecord pkgs cur) :
    x ∈ pkgs ∨
      ((dictGet fP cur).isSome ∧ (dictGet fV cur).isSome ∧ x.2 = cur) := by
  unfold commitRecord at h
  by_cases hc : cur ≠ [] ∧ (dictGet fP cur).isSome ∧ (dictGet fV cur).isSome
  · rw [if_pos hc] at h
    rcases mem_dictInsert h with h1 | h2
    · right
      exact ⟨hc.2.1, hc.2.2, congrArg Prod.snd h1⟩
    · left; exact h2
  · rw [if_neg hc] at h
    left; exact h

theorem processLine_fst (st : PkgIndex × PkgRecord) (line : Str) :
    (processLine st line).1 = commitRecord st.1 st.2 ∨
      (processLine st line).1 = st.1 := by
  unfold processLine
  by_cases h1 : pyStrip line = []
  · left; simp [h1]
  · right
    by_cases h2 : (pyStrip line).any (fun c => decide (c = ':')) = true
    · simp [h1, h2]
    · simp [h1, h2]

theorem foldl_processLine_inv (lines : List Str) (st : PkgIndex × PkgRecord)
    (h : ∀ kv ∈ st.1, (dictGet fP kv.2).isSome ∧ (dictGet fV kv.2).isSome) :
    ∀ kv ∈ (lines.foldl processLine st).1,
      (dictGet fP kv.2).isSome ∧ (dictGet fV kv.2).isSome := by
  induction lines generalizing st with
  | nil => exact h
  | cons ln lns ih =>
    rw [List.foldl_cons]
    apply ih
    rcases processLine_fst st ln with he | he <;> rw [he]
    · intro kv hkv
      rcases commitRecord_mem hkv with hin | ⟨hP2, hV2, hcur⟩
      · exact h kv hin
      · exact ⟨hcur ▸ hP2, hcur ▸ hV2⟩
    · exact h

theorem parse_records_PV {content : Str} :
    ∀ kv ∈ parse_package_index content,
      (dictGet fP kv.2).isSome ∧ (dictGet fV kv.2).isSome := by
  unfold parse_package_index
  intro kv hkv
  rcases commitRecord_mem hkv with hin | ⟨hP2, hV2, hcur⟩
  · exact foldl_processLine_inv (splitlines content) ([], []) (by simp) kv hin
  · exact ⟨hcur ▸ hP2, hcur ▸ hV2⟩

theorem parse_records_ne_nil {content : Str} {kv : Str × PkgRecord}
    (h : kv ∈ parse_package_index content) : kv.2 ≠ [] :=
  dictGet_isSome_ne_nil (parse_records_PV kv h).1

/-! ### Claim C2 -/

/-- C2: the locator first returns the first parsed record whose `P` field
equals the name exactly; failing that, the first record whose composite key
contains the name as a substring; and if neither scan matches, the run fails
with the `DependencyError` message naming the requested package — these three
cases are exhaustive. -/
theorem locator_match_order (content name : Str) :
    (∀ kv, (parse_package_index content).find?
        (fun p => decide (dictGet fP p.2 = some name)) = some kv →
      get_direct_dependencies content name
        = Except.ok (extract_dependencies kv.2)) ∧
    ((parse_package_index content).find?
        (fun p => decide (dictGet fP p.2 = some name)) = none →
      ∀ kv, (parse_package_index content).find?
          (fun p => decide (name <:+: p.1)) = some kv →
        get_direct_dependencies content name
          = Except.ok (extract_dependencies kv.2)) ∧
    ((parse_package_index content).find?
        (fun p => decide (dictGet fP p.2 = some name)) = none →
      (parse_package_index content).find?
          (fun p => decide (name <:+: p.1)) = none →
      get_direct_dependencies content name = Except.error (notFoundMsg name)) := by
  refine ⟨?_, ?_, ?_⟩
  · intro kv hf1
    have hp := List.find?_some hf1
    rw [decide_eq_true_eq] at hp
    have hne : kv.2 ≠ [] := dictGet_isSome_ne_nil (by rw [hp]; rfl)
    have hemp : kv.2.isEmpty = false := by simpa [List.isEmpty_iff] using hne
    simp [get_direct_dependencies, find_target_package, hf1, optTruthy, hemp]
  · intro hf1 kv hf2
    have hne : kv.2 ≠ [] := parse_records_ne_nil (List.mem_of_find?_eq_some hf2)
    have hemp : kv.2.isEmpty = false := by simpa [List.isEmpty_iff] using hne
    simp [get_direct_dependencies, find_target_package, hf1, hf2, optTruthy, hemp]
  · intro hf1 hf2
    simp [get_direct_dependencies, find_target_package, hf1, hf2, optTruthy]

/-- C2 witness: the exact-match case on a one-record index. -/
theorem locator_match_order_witness :
    get_direct_dependencies "P:nginx\nV:1\nD:a b\n".toList "nginx".toList
      = Except.ok (extract_dependencies
          [("P".toList, "nginx".toList), ("V".toList, "1".toList),
            ("D".toList, "a b".toList)]) :=
  (locator_match_order "P:nginx\nV:1\nD:a b\n".toList "nginx".toList).1
    ("nginx-1".toList,
      [("P".toList, "nginx".toList), ("V".toList, "1".toList),
        ("D".toList, "a b".toList)])
    (by decide)

/-! ### Claim C10 -/

/-- C10: the locator is deterministic on a fixed index text, and the record
it selects is the earliest-committed matching one: either the first record in
insertion order whose `P` field equals the name, or — when no record's `P`
field matches — the first record in insertion order whose composite key
contains the name as a substring. -/
theorem locator_insertion_order (content name : Str) :
    (get_direct_dependencies content name = get_direct_dependencies content name) ∧
    (∀ rec, find_target_package (parse_package_index content) name = some rec →
      (∃ pre kv post, parse_package_index content = pre ++ kv :: post ∧
        kv.2 = rec ∧ dictGet fP kv.2 = some name ∧
        ∀ kv2 ∈ pre, dictGet fP kv2.2 ≠ some name) ∨
      ((∀ kv ∈ parse_package_index content, dictGet fP kv.2 ≠ some name) ∧
        ∃ pre kv post, parse_package_index content = pre ++ kv :: post ∧
          kv.2 = rec ∧ (name <:+: kv.1) ∧
          ∀ kv2 ∈ pre, ¬(name <:+: kv2.1))) := by
  refine ⟨rfl, ?_⟩
  intro rec hrec
  cases hf1 : (parse_package_index content).find?
      (fun p => decide (dictGet fP p.2 = some name)) with
  | some kv =>
    have hp := List.find?_some hf1
    rw [decide_eq_true_eq] at hp
    have hne : kv.2 ≠ [] := dictGet_isSome_ne_nil (by rw [hp]; rfl)
    have hemp : kv.2.isEmpty = false := by simpa [List.isEmpty_iff] using hne
    simp [find_target_package, hf1, optTruthy, hemp] at hrec
    obtain ⟨-, pre, post, heq, hpre⟩ := List.find?_eq_some.mp hf1
    left
    refine ⟨pre, kv, post, heq, hrec, hp, ?_⟩
    intro kv2 hkv2
    have := hpre kv2 hkv2
    simpa using this
  | none =>
    cases hf2 : (parse_package_index content).find?
        (fun p => decide (name <:+: p.1)) with
    | some kv =>
      simp [find_target_package, hf1, hf2, optTruthy] at hrec
      obtain ⟨hpkv, pre, post, heq, hpre⟩ := List.find?_eq_some.mp hf2
      rw [decide_eq_true_eq] at hpkv
      right
      constructor
      · intro kv2 hkv2
        have := List.find?_eq_none.mp hf1 kv2 hkv2
        simpa using this
      · refine ⟨pre, kv, post, heq, hrec, hpkv, ?_⟩
        intro kv2 hkv2
        have := hpre kv2 hkv2
        simpa using this
    | none =>
      exfalso
      simp [find_target_package, hf1, hf2, optTruthy] at hrec

/-- C10 witness: the earliest-matching-record decomposition applied to a
one-record index located by exact name. -/
theorem locator_insertion_order_witness :
    (∃ pre kv post,
      parse_package_index "P:a\nV:1\n".toList = pre ++ kv :: post ∧
      kv.2 = [("P".toList, "a".toList), ("V".toList, "1".toList)] ∧
      dictGet fP kv.2 = some "a".toList ∧
      ∀ kv2 ∈ pre, dictGet fP kv2.2 ≠ some "a".toList) ∨
    ((∀ kv ∈ parse_package_index "P:a\nV:1\n".toList,
        dictGet fP kv.2 ≠ some "a".toList) ∧
      ∃ pre kv post,
        parse_package_index "P:a\nV:1\n".toList = pre ++ kv :: post ∧
        kv.2 = [("P".toList, "a".toList), ("V".toList, "1".toList)] ∧
        ("a".toList <:+: kv.1) ∧
        ∀ kv2 ∈ pre, ¬("a".toList <:+: kv2.1)) :=
  (locator_insertion_order "P:a\nV:1\n".toList "a".toList).2
    [("P".toList, "a".toList), ("V".toList, "1".toList)] (by decide)

end Visualizer
